import Mathlib

/-!
Verification development for the repository's package retention/pruning
engine (`scripts/prune_repo.py`).  The Python source is shallowly embedded:
pure functions become Lean functions, the mutable `set()` accumulators of
`prune_packages` become explicitly threaded lists (with `insertSet`
modelling `set.add`, so membership is the meaningful notion), and the
places where the Python code raises an uncaught exception are modelled by
an `Option` result whose `none` case means "the run crashed".

Two crash points of the source matter and are modelled faithfully:
* `sorted(items, key=...)` compares `Version` objects with `None` when a
  group of two or more entries contains an unparsable version
  (`Version.__lt__`/`__gt__` dereference `other.major`, raising
  `AttributeError`); and
* `if v == current_ver` in the keep loop evaluates
  `Version.__eq__(current_ver, None)` for an entry with an unparsable
  version, which also dereferences `None.major` and raises.
Consequently `prune_packages` raises whenever any group contains an entry
with an unparsable version, which is exactly the `hasNone` guard below.
-/

namespace PruneRepo

/-- A filesystem path of an artifact. -/
abbrev Path := String

/-- The `Version` class: an ordered triple of non-negative integers. -/
structure Version where
  major : Nat
  minor : Nat
  patch : Nat
deriving DecidableEq, Repr

/-- `Version.__lt__`: lexicographic comparison of the (major, minor, patch)
tuples, as Python tuple comparison does. -/
def vlt (a b : Version) : Bool :=
  decide (a.major < b.major ∨
    (a.major = b.major ∧ (a.minor < b.minor ∨
      (a.minor = b.minor ∧ a.patch < b.patch))))

/-- `Version.is_previous_series`: same major, strictly lower minor. -/
def Version.is_previous_series (a b : Version) : Bool :=
  decide (a.major = b.major ∧ a.minor < b.minor)

/-- One `(ver, path)` pair of a package group; the version is `none` when
`Version.parse` failed on the artifact's version string. -/
abbrev Entry := Option Version × Path

/-- The version key used by `sorted(items, key=lambda iv: iv[0])` and
`max(..., key=lambda iv: iv[0])`.  It is only consulted on entries whose
version is present (the Python code raises otherwise, which the caller
models separately), so the default value is irrelevant. -/
def getV (e : Entry) : Version :=
  e.1.getD ⟨0, 0, 0⟩

/-- The test `v > current_ver and not allow_greater` of the first loop of
`prune_packages`.  An entry with an absent version never takes this branch
(the loop guards `v is None` first). -/
def gtb (cur : Version) (ag : Bool) (e : Entry) : Bool :=
  match e.1 with
  | none => false
  | some v => vlt cur v && !ag

/-- The comprehension filter `v is not None and v.is_previous_series(current_ver)`. -/
def isPrevb (cur : Version) (e : Entry) : Bool :=
  match e.1 with
  | none => false
  | some v => v.is_previous_series cur

/-- `set.add`: sets are modelled as lists, adding only a missing element;
membership is the meaningful notion. -/
def insertSet (p : Path) (l : List Path) : List Path :=
  if p ∈ l then l else l ++ [p]

/-- Stable insertion of an entry into a version-sorted list: the new entry
goes after every element whose key is not greater, as Python's stable sort
places equal keys in input order. -/
def insSorted (e : Entry) : List Entry → List Entry
  | [] => [e]
  | f :: rest => if vlt (getV e) (getV f) then e :: f :: rest else f :: insSorted e rest

/-- `sorted(items, key=lambda iv: iv[0])` as a stable insertion sort. -/
def sortByVer (l : List Entry) : List Entry :=
  l.foldl (fun acc e => insSorted e acc) []

/-- The first loop of `prune_packages`: entries greater than current (with
a known version, when the override is unset) are added to `to_delete`, all
others are appended to `filtered`. -/
def filterStage (cur : Version) (ag : Bool) (dl : List Path) (fs : List Entry) :
    List Entry → List Path × List Entry
  | [] => (dl, fs)
  | e :: rest =>
    if gtb cur ag e then filterStage cur ag (insertSet e.2 dl) fs rest
    else filterStage cur ag dl (fs ++ [e]) rest

/-- The `if v == current_ver` loop: paths of entries whose version equals
the current version are added to `to_keep`. -/
def keepStage (cur : Version) (kp : List Path) : List Entry → List Path
  | [] => kp
  | e :: rest => keepStage cur (if e.1 = some cur then insertSet e.2 kp else kp) rest

/-- `max(prev_series, key=lambda iv: iv[0])`: Python's `max` keeps the
current best unless a later element is strictly greater, so the first of
several maximal elements wins. -/
def pythonMax (best : Entry) : List Entry → Entry
  | [] => best
  | e :: rest => pythonMax (if vlt (getV best) (getV e) then e else best) rest

/-- The rollback selection: among `filtered`, the entries in the previous
series, and of those the maximum, if any. -/
def rollbackPick (cur : Version) (f : List Entry) : Option Entry :=
  match f.filter (isPrevb cur) with
  | [] => none
  | h :: t => some (pythonMax h t)

/-- The final loop of `prune_packages`: every filtered entry whose path is
not in `to_keep` is added to `to_delete`. -/
def sweepStage (keep : List Path) (dl : List Path) : List Entry → List Path
  | [] => dl
  | e :: rest => sweepStage keep (if e.2 ∈ keep then dl else insertSet e.2 dl) rest

/-- Whether a group contains an entry with an unparsable version, in which
case the Python code raises (in `sorted` for groups of two or more, or at
`v == current_ver` otherwise) and the whole call dies. -/
def hasNone (l : List Entry) : Bool :=
  l.any (fun e => e.1.isNone)

/-- The two statements of `prune_packages` that grow `to_keep` for one
group: the equal-to-current loop followed by the rollback selection. -/
def groupKeep (cur : Version) (kp : List Path) (f : List Entry) : List Path :=
  match rollbackPick cur f with
  | none => keepStage cur kp f
  | some e => insertSet e.2 (keepStage cur kp f)

/-- The body of `prune_packages` for a single group, threading the shared
`to_keep`/`to_delete` sets; `none` models the uncaught exception raised on
a group containing an unparsable version. -/
def pruneGroup (cur : Version) (ag : Bool) (kp dl : List Path) (items : List Entry) :
    Option (List Path × List Path) :=
  if hasNone items then none else
  if (filterStage cur ag dl [] (sortByVer items)).2 = [] then
    some (kp, (filterStage cur ag dl [] (sortByVer items)).1)
  else
    some (groupKeep cur kp (filterStage cur ag dl [] (sortByVer items)).2,
      sweepStage (groupKeep cur kp (filterStage cur ag dl [] (sortByVer items)).2)
        (filterStage cur ag dl [] (sortByVer items)).1
        (filterStage cur ag dl [] (sortByVer items)).2)

/-- `prune_packages(pkg_map, current_ver, allow_greater)`: the groups of
the map are processed in order against the shared pair of sets (the group
names are never consulted by the function, so a map is modelled as the
list of its groups); a crash in any group aborts the whole call. -/
def prune_packages (cur : Version) (ag : Bool) (kd : List Path × List Path) :
    List (List Entry) → Option (List Path × List Path)
  | [] => some kd
  | g :: rest =>
    match pruneGroup cur ag kd.1 kd.2 g with
    | none => none
    | some kd' => prune_packages cur ag kd' rest

/-- Numeric value of a decimal digit character. -/
def digitVal (c : Char) : Nat :=
  c.toNat - '0'.toNat

/-- Value of a run of decimal digits, as Python's `int()` of a matched
group (leading zeros allowed). -/
def natOfDigits (ds : List Char) : Nat :=
  ds.foldl (fun a c => 10 * a + digitVal c) 0

/-- Match of `(\d+)\.(\d+)\.(\d+)` at the start of the character list.
Greedy `\d+` followed by a literal dot never benefits from backtracking
(giving back a digit leaves a digit where the dot is required), so the
maximal-munch reading is exactly the regex's behaviour; the third group is
maximal because nothing follows it in the pattern. -/
def matchTripleFrom (cs : List Char) : Option (Nat × Nat × Nat) :=
  if cs.takeWhile Char.isDigit = [] then none else
  match cs.dropWhile Char.isDigit with
  | '.' :: r2 =>
    if r2.takeWhile Char.isDigit = [] then none else
    match r2.dropWhile Char.isDigit with
    | '.' :: r3 =>
      if r3.takeWhile Char.isDigit = [] then none else
      some (natOfDigits (cs.takeWhile Char.isDigit),
        natOfDigits (r2.takeWhile Char.isDigit),
        natOfDigits (r3.takeWhile Char.isDigit))
    | _ => none
  | _ => none

/-- Match of `v?(\d+)\.(\d+)\.(\d+)` at one position.  When the position
holds a `v` the regex first consumes it; if the rest fails to match, the
attempt without the `v` requires a digit at the `v` and fails too, so only
the consumed-`v` attempt matters. -/
def matchTripleAt (cs : List Char) : Option (Nat × Nat × Nat) :=
  match cs with
  | 'v' :: rest => matchTripleFrom rest
  | _ => matchTripleFrom cs

/-- `re.search` of `semver_re`: attempt a match at each start position from
left to right, returning the first success. -/
def searchTriple : List Char → Option (Nat × Nat × Nat)
  | [] => none
  | c :: rest =>
    match matchTripleAt (c :: rest) with
    | some t => some t
    | none => searchTriple rest

/-- `Version.parse`: build a `Version` from the first match of
`semver_re`, or `None` when the string holds no match. -/
def Version.parse (s : String) : Option Version :=
  (searchTriple s.toList).map fun t => ⟨t.1, t.2.1, t.2.2⟩

/-- A character list contains a match of `semver_re` somewhere: after some
position, an optional `v` is followed by three non-empty digit runs
separated by dots. -/
def hasTriple (cs : List Char) : Prop :=
  ∃ pre vtag d1 d2 d3 rest,
    cs = pre ++ vtag ++ d1 ++ '.' :: (d2 ++ '.' :: (d3 ++ rest))
    ∧ (vtag = [] ∨ vtag = ['v'])
    ∧ d1 ≠ [] ∧ d2 ≠ [] ∧ d3 ≠ []
    ∧ (∀ c ∈ d1, c.isDigit = true) ∧ (∀ c ∈ d2, c.isDigit = true)
    ∧ (∀ c ∈ d3, c.isDigit = true)

/-- The environment `main` runs against: which query tools are installed,
the artifact files each scan finds, and the metadata the external tools
report for a file.  `rpmMeta` returns the `NAME` and `VERSION-RELEASE`
fields of the one-line `rpm -qp` output (`none` when the query fails or
the line holds no `|`, both of which `main` skips with a warning);
`debMeta` returns the `Package` and `Version` control fields of
`dpkg-deb -f` (`none` when a query fails). -/
structure Env where
  rpmTool : Bool
  dpkgTool : Bool
  rpmFiles : List Path
  debFiles : List Path
  rpmMeta : Path → Option (String × String)
  debMeta : Path → Option (String × String)

/-- The loop of `main` that builds `rpm_map`: files whose metadata query
fails are skipped, and only packages whose reported name equals the
requested application name are grouped (all such entries share that single
name, so the map is its one group). -/
def buildRpmMap (env : Env) (app : String) : List Entry :=
  env.rpmFiles.foldl
    (fun acc p =>
      match env.rpmMeta p with
      | none => acc
      | some nv =>
        if nv.1 = app then acc ++ [(Version.parse nv.2, p)] else acc)
    []

/-- The loop of `main` that builds `deb_map`: a failed query or an empty
`Package` field skips the file; only packages named `app` are grouped. -/
def buildDebMap (env : Env) (app : String) : List Entry :=
  env.debFiles.foldl
    (fun acc p =>
      match env.debMeta p with
      | none => acc
      | some nv =>
        if nv.1 = "" then acc
        else if nv.1 = app then acc ++ [(Version.parse nv.2, p)] else acc)
    []

/-- Outcome of a run of `main` (after argument parsing): the fatal early
returns, an uncaught exception out of `prune_packages`, or a completed run
with its final kept and deleted path sets. -/
inductive Outcome where
  | badTag
  | missingRpm
  | missingDeb
  | crashed
  | ok (kept deleted : List Path)
deriving DecidableEq, Repr

/-- The process exit code of an outcome; a run that dies on an uncaught
exception has no `return` value (Python exits from the traceback). -/
def exitCode : Outcome → Option Nat
  | .badTag => some 3
  | .missingRpm => some 4
  | .missingDeb => some 5
  | .crashed => none
  | .ok _ _ => some 0

/-- The paths whose removal the deletion phase attempts: only a completed
run reaches `os.remove`, and it attempts every path of the merged deleted
set (each failure is logged and skipped). -/
def removedPaths : Outcome → List Path
  | .ok _ d => d
  | _ => []

/-- `main` after argument parsing: parse the tag (exit 3 on failure),
fail with exit 4 if RPM files exist without the `rpm` tool, build the RPM
map, fail with exit 5 if DEB files exist without `dpkg-deb`, build the DEB
map, prune both maps against the shared empty sets per call, union the
results, then delete.  The two tool checks happen in this order, before
any deletion. -/
def main_model (env : Env) (app tag : String) (ag : Bool) : Outcome :=
  match Version.parse tag with
  | none => .badTag
  | some cur =>
    if env.rpmFiles ≠ [] ∧ ¬env.rpmTool then .missingRpm
    else
      let rpmMap := buildRpmMap env app
      if env.debFiles ≠ [] ∧ ¬env.dpkgTool then .missingDeb
      else
        let debMap := buildDebMap env app
        match prune_packages cur ag ([], []) [rpmMap] with
        | none => .crashed
        | some kd1 =>
          match prune_packages cur ag ([], []) [debMap] with
          | none => .crashed
          | some kd2 => .ok (kd1.1 ++ kd2.1) (kd1.2 ++ kd2.2)

/-- The `filtered` list a group produces: the sorted entries that the
first loop does not delete. -/
def survivors (cur : Version) (ag : Bool) (items : List Entry) : List Entry :=
  (sortByVer items).filter (fun e => !gtb cur ag e)

/-- The rollback entry a group selects, if any. -/
def rollbackOf (cur : Version) (ag : Bool) (items : List Entry) : Option Entry :=
  rollbackPick cur (survivors cur ag items)

/-- The paths a group's processing adds to `to_keep`: paths of entries at
exactly the current version, plus the selected rollback entry's path. -/
def keptNew (cur : Version) (ag : Bool) (items : List Entry) (p : Path) : Prop :=
  (∃ e, e ∈ items ∧ e.1 = some cur ∧ e.2 = p) ∨
  (∃ e, rollbackOf cur ag items = some e ∧ e.2 = p)

/-- The paths of a group's entries. -/
def pathsOf (g : List Entry) : List Path :=
  g.map (fun e => e.2)

/-- All paths of a package map, group by group. -/
def allPaths (groups : List (List Entry)) : List Path :=
  (groups.map pathsOf).flatten

/-- The map whose entries are the artifacts of a prior run's `kept` set:
each group restricted to its kept entries. -/
def keptFilter (k : List Path) (groups : List (List Entry)) : List (List Entry) :=
  groups.map (fun g => g.filter (fun e => decide (e.2 ∈ k)))

/-- C1: the claim's Scenario B fails on the code.  With current `2.5.0`,
the five artifacts of the scenario and `allowGreater = true`, the engine
does not retain the greater version `2.6.0` (path `"e"`): the first loop
lets it through into `filtered`, but nothing ever adds it to `to_keep`,
so the final loop deletes it.  The run returns kept `{a, b}` and deleted
`{d, c, e}`, not the claimed kept `{a, b, e}` — the allow-greater override
has no effect, contradicting the module docstring's "Optionally remove
versions > current unless PRUNE_ALLOW_GREATER is set". -/
theorem C1_allow_greater_ignored :
    pruneGroup ⟨2, 5, 0⟩ true [] []
      [(some ⟨2, 5, 0⟩, "a"), (some ⟨2, 4, 9⟩, "b"), (some ⟨2, 4, 8⟩, "c"),
       (some ⟨2, 3, 1⟩, "d"), (some ⟨2, 6, 0⟩, "e")]
      = some (["a", "b"], ["d", "c", "e"]) := by
  decide

/-- C2: an entry with an unparsable version is not kept: the engine dies
on it.  For the single-entry group with an absent version, the keep loop
evaluates `v == current_ver` with `v = None`, and `Version.__eq__`
dereferences `None.major`, raising `AttributeError` (for larger groups
`sorted` raises first); the entry is never placed in `kept`, contradicting
the code's own comment "unknown version string: keep for safety". -/
theorem C2_absent_version_is_never_kept :
    pruneGroup ⟨1, 0, 0⟩ false [] [] [(none, "p")] = none := by
  decide

/-- C3 counterexample: the claim as stated is false when a group lists the
same path under two versions.  With entries `(2.6.0, "p")` and
`(2.5.0, "p")` and current `2.5.0`, the first loop deletes `"p"` for the
greater version before the equal-current entry puts `"p"` into `kept`, so
the path of an entry whose version exactly equals current is in the
deleted set. -/
theorem C3_duplicate_path_in_deleted :
    pruneGroup ⟨2, 5, 0⟩ false [] []
      [(some ⟨2, 6, 0⟩, "p"), (some ⟨2, 5, 0⟩, "p")]
      = some (["p"], ["p"]) := by
  decide

/-- C4 counterexample: the claim as stated is false when a group lists the
same path under two versions.  With entries `(2.4.8, "a")`, `(2.4.9, "b")`
and `(2.5.0, "a")` and current `2.5.0`, the previous-series entries are
`(2.4.8, "a")` and `(2.4.9, "b")`; the maximum `(2.4.9, "b")` is kept, but
the other one is *not* deleted (its path `"a"` is already in `kept` for
the equal-current entry), so the deleted set is empty rather than
containing the non-maximal previous-series entry. -/
theorem C4_duplicate_path_shields_nonmax_prev :
    pruneGroup ⟨2, 5, 0⟩ false [] []
      [(some ⟨2, 4, 8⟩, "a"), (some ⟨2, 4, 9⟩, "b"), (some ⟨2, 5, 0⟩, "a")]
      = some (["a", "b"], []) := by
  decide

/-- C5: the engine does not return a covering pair of sets for every
distinct-path input map: a group that contains an entry with an absent
version makes the Python code raise (`AttributeError` out of
`Version.__eq__`, or out of `sorted` for groups of two or more), so no
sets are returned at all — the artifact is omitted from both sets. -/
theorem C5_absent_version_crashes_engine :
    prune_packages ⟨1, 0, 0⟩ false ([], []) [[(none, "a")]] = none := by
  decide

/-- C6 counterexample: the claim as stated is false when a group lists the
same path under two versions.  With entries `(2.4.9, "p")` and
`(2.6.0, "p")` and current `2.5.0`: with the override the greater entry
survives to the sweep, which skips it because `"p"` is kept as the
rollback path, giving deleted `{}`; without the override the first loop
deletes `"p"` unconditionally, giving deleted `{p}`.  The two runs return
different pairs. -/
theorem C6_duplicate_path_flag_matters :
    prune_packages ⟨2, 5, 0⟩ true ([], [])
        [[(some ⟨2, 4, 9⟩, "p"), (some ⟨2, 6, 0⟩, "p")]] = some (["p"], []) ∧
    prune_packages ⟨2, 5, 0⟩ false ([], [])
        [[(some ⟨2, 4, 9⟩, "p"), (some ⟨2, 6, 0⟩, "p")]] = some (["p"], ["p"]) := by
  exact ⟨by decide, by decide⟩

/-- C8 counterexample: the exit codes are checked in order, so "fatal with
exit code 5 exactly when at least one .deb file is found and dpkg-deb is
absent" is false: when both ecosystems have files and both tools are
missing, the run exits 4 (the RPM check fires first), although the DEB
condition holds. -/
theorem C8_rpm_check_shadows_deb :
    main_model ⟨false, false, ["a.rpm"], ["b.deb"], fun _ => none, fun _ => none⟩
        "app" "1.0.0" false = .missingRpm ∧
    exitCode (main_model ⟨false, false, ["a.rpm"], ["b.deb"], fun _ => none, fun _ => none⟩
        "app" "1.0.0" false) = some 4 := by
  exact ⟨rfl, rfl⟩

/-- C10 counterexample: with components 1, 2, 3 and the trailing suffix
`"4"` (suffixes are claimed arbitrary), the string is `"1.2.34"` and the
greedy third group absorbs the suffix digit: parsing returns
`(1, 2, 34)`, not the claimed triple `(1, 2, 3)`. -/
theorem C10_digit_suffix_changes_patch :
    Version.parse "1.2.34" = some ⟨1, 2, 34⟩ ∧
      (some (Version.mk 1 2 34) : Option Version) ≠ some ⟨1, 2, 3⟩ := by
  exact ⟨by decide, by decide⟩

theorem vlt_irrefl (a : Version) : vlt a a = false := by
  simp [vlt]

theorem vlt_trans {a b c : Version} (h1 : vlt a b = true) (h2 : vlt b c = true) :
    vlt a c = true := by
  simp only [vlt, decide_eq_true_eq] at *
  omega

theorem vlt_asymm {a b : Version} (h : vlt a b = true) : vlt b a = false := by
  simp only [vlt, decide_eq_true_eq, decide_eq_false_iff_not] at *
  omega

theorem vlt_total {a b : Version} (h : vlt a b = false) : vlt b a = true ∨ a = b := by
  obtain ⟨a1, a2, a3⟩ := a
  obtain ⟨b1, b2, b3⟩ := b
  simp only [vlt, decide_eq_true_eq, decide_eq_false_iff_not, Version.mk.injEq] at *
  omega

theorem prev_vlt {a b : Version} (h : a.is_previous_series b = true) : vlt a b = true := by
  simp only [Version.is_previous_series, vlt, decide_eq_true_eq] at *
  omega

theorem insertSet_mem (q p : Path) (l : List Path) :
    q ∈ insertSet p l ↔ q = p ∨ q ∈ l := by
  unfold insertSet
  split
  · exact ⟨fun h2 => Or.inr h2, fun h2 => h2.elim (fun e => e ▸ ‹p ∈ l›) id⟩
  · simp [or_comm]

theorem insSorted_mem (x e : Entry) (l : List Entry) :
    x ∈ insSorted e l ↔ x = e ∨ x ∈ l := by
  induction l with
  | nil => simp [insSorted]
  | cons f rest ih =>
    unfold insSorted
    split
    · simp [or_assoc, or_comm, or_left_comm]
    · simp only [List.mem_cons, ih]
      tauto

theorem sortByVer_mem_aux (x : Entry) (l acc : List Entry) :
    x ∈ l.foldl (fun a e => insSorted e a) acc ↔ x ∈ acc ∨ x ∈ l := by
  induction l generalizing acc with
  | nil => simp
  | cons e rest ih =>
    simp only [List.foldl_cons, ih, insSorted_mem, List.mem_cons]
    tauto

theorem sortByVer_mem (x : Entry) (l : List Entry) : x ∈ sortByVer l ↔ x ∈ l := by
  simpa [sortByVer] using sortByVer_mem_aux x l []

theorem filterStage_snd (cur : Version) (ag : Bool) (l : List Entry) :
    ∀ dl fs, (filterStage cur ag dl fs l).2 = fs ++ l.filter (fun e => !gtb cur ag e) := by
  induction l with
  | nil => intro dl fs; simp [filterStage]
  | cons e rest ih =>
    intro dl fs
    by_cases h : gtb cur ag e = true
    · simp [filterStage, h, ih]
    · simp only [Bool.not_eq_true] at h
      simp [filterStage, h, ih, List.filter_cons]

theorem filterStage_fst_mem (cur : Version) (ag : Bool) (l : List Entry) :
    ∀ dl fs p, p ∈ (filterStage cur ag dl fs l).1 ↔
      p ∈ dl ∨ ∃ e, e ∈ l ∧ gtb cur ag e = true ∧ e.2 = p := by
  induction l with
  | nil => intro dl fs p; simp [filterStage]
  | cons e rest ih =>
    intro dl fs p
    by_cases h : gtb cur ag e = true
    · simp only [filterStage, h, if_true, ih, insertSet_mem, List.mem_cons]
      constructor
      · rintro ((rfl | hp) | ⟨f, hf, hg, hfp⟩)
        · exact Or.inr ⟨e, Or.inl rfl, h, rfl⟩
        · exact Or.inl hp
        · exact Or.inr ⟨f, Or.inr hf, hg, hfp⟩
      · rintro (hp | ⟨f, (rfl | hf), hg, hfp⟩)
        · exact Or.inl (Or.inr hp)
        · exact Or.inl (Or.inl hfp.symm)
        · exact Or.inr ⟨f, hf, hg, hfp⟩
    · simp only [Bool.not_eq_true] at h
      simp only [filterStage, h, Bool.false_eq_true, if_false, ih, List.mem_cons]
      constructor
      · rintro (hp | ⟨f, hf, hg, hfp⟩)
        · exact Or.inl hp
        · exact Or.inr ⟨f, Or.inr hf, hg, hfp⟩
      · rintro (hp | ⟨f, (rfl | hf), hg, hfp⟩)
        · exact Or.inl hp
        · exact absurd hg (by simp [h])
        · exact Or.inr ⟨f, hf, hg, hfp⟩

theorem keepStage_mem (cur : Version) (l : List Entry) :
    ∀ kp p, p ∈ keepStage cur kp l ↔
      p ∈ kp ∨ ∃ e, e ∈ l ∧ e.1 = some cur ∧ e.2 = p := by
  induction l with
  | nil => intro kp p; simp [keepStage]
  | cons e rest ih =>
    intro kp p
    by_cases h : e.1 = some cur
    · simp only [keepStage, h, if_true, ih, insertSet_mem, List.mem_cons]
      constructor
      · rintro ((rfl | hp) | ⟨f, hf, hc, hfp⟩)
        · exact Or.inr ⟨e, Or.inl rfl, h, rfl⟩
        · exact Or.inl hp
        · exact Or.inr ⟨f, Or.inr hf, hc, hfp⟩
      · rintro (hp | ⟨f, (rfl | hf), hc, hfp⟩)
        · exact Or.inl (Or.inr hp)
        · exact Or.inl (Or.inl hfp.symm)
        · exact Or.inr ⟨f, hf, hc, hfp⟩
    · simp only [keepStage, h, if_false, ih, List.mem_cons]
      constructor
      · rintro (hp | ⟨f, hf, hc, hfp⟩)
        · exact Or.inl hp
        · exact Or.inr ⟨f, Or.inr hf, hc, hfp⟩
      · rintro (hp | ⟨f, (rfl | hf), hc, hfp⟩)
        · exact Or.inl hp
        · exact absurd hc h
        · exact Or.inr ⟨f, hf, hc, hfp⟩

theorem sweepStage_mem (K : List Path) (l : List Entry) :
    ∀ dl p, p ∈ sweepStage K dl l ↔
      p ∈ dl ∨ ∃ e, e ∈ l ∧ e.2 = p ∧ p ∉ K := by
  induction l with
  | nil => intro dl p; simp [sweepStage]
  | cons e rest ih =>
    intro dl p
    by_cases h : e.2 ∈ K
    · simp only [sweepStage, h, if_true, ih, List.mem_cons]
      constructor
      · rintro (hp | ⟨f, hf, hfp, hk⟩)
        · exact Or.inl hp
        · exact Or.inr ⟨f, Or.inr hf, hfp, hk⟩
      · rintro (hp | ⟨f, (rfl | hf), hfp, hk⟩)
        · exact Or.inl hp
        · exact absurd (hfp ▸ h) hk
        · exact Or.inr ⟨f, hf, hfp, hk⟩
    · simp only [sweepStage, h, if_false, ih, insertSet_mem, List.mem_cons]
      constructor
      · rintro ((rfl | hp) | ⟨f, hf, hfp, hk⟩)
        · exact Or.inr ⟨e, Or.inl rfl, rfl, h⟩
        · exact Or.inl hp
        · exact Or.inr ⟨f, Or.inr hf, hfp, hk⟩
      · rintro (hp | ⟨f, (rfl | hf), hfp, hk⟩)
        · exact Or.inl (Or.inr hp)
        · exact Or.inl (Or.inl hfp.symm)
        · exact Or.inr ⟨f, hf, hfp, hk⟩

theorem pythonMax_mem (l : List Entry) :
    ∀ best, pythonMax best l = best ∨ pythonMax best l ∈ l := by
  induction l with
  | nil => intro best; simp [pythonMax]
  | cons e rest ih =>
    intro best
    rcases ih (if vlt (getV best) (getV e) then e else best) with h | h
    · rw [pythonMax, h]
      split
      · exact Or.inr (List.mem_cons_self _ _)
      · exact Or.inl rfl
    · rw [pythonMax]
      exact Or.inr (List.mem_cons_of_mem _ h)

theorem pythonMax_ub (l : List Entry) :
    ∀ best x, (x = best ∨ x ∈ l) →
      vlt (getV (pythonMax best l)) (getV x) = false := by
  induction l with
  | nil =>
    intro best x hx
    rcases hx with h | h
    · rw [pythonMax, h]
      exact vlt_irrefl _
    · simp at h
  | cons e rest ih =>
    intro best x hx
    rw [pythonMax]
    by_cases hbe : vlt (getV best) (getV e) = true
    · rw [if_pos hbe]
      rcases hx with h | h
      · rw [h]
        have hMe := ih e e (Or.inl rfl)
        by_cases hMx : vlt (getV (pythonMax e rest)) (getV best) = true
        · exact absurd (vlt_trans hMx hbe) (by simp [hMe])
        · simpa using hMx
      · rcases List.mem_cons.mp h with h2 | h2
        · rw [h2]
          exact ih e e (Or.inl rfl)
        · exact ih e x (Or.inr h2)
    · rw [if_neg hbe]
      have hbe2 : vlt (getV best) (getV e) = false := by simpa using hbe
      rcases hx with h | h
      · rw [h]
        exact ih best best (Or.inl rfl)
      · rcases List.mem_cons.mp h with h2 | h2
        · rw [h2]
          have hMb := ih best best (Or.inl rfl)
          by_cases hMx : vlt (getV (pythonMax best rest)) (getV e) = true
          · rcases vlt_total hbe2 with hxb | hxb
            · exact absurd (vlt_trans hMx hxb) (by simp [hMb])
            · rw [← hxb] at hMx
              exact absurd hMx (by simp [hMb])
          · simpa using hMx
        · exact ih best x (Or.inr h2)

theorem pythonMax_eq_of_unique (l : List Entry) (best em : Entry)
    (hm : em = best ∨ em ∈ l)
    (hmax : ∀ x, (x = best ∨ x ∈ l) → x ≠ em → vlt (getV x) (getV em) = true) :
    pythonMax best l = em := by
  by_contra hne
  have h1 := hmax (pythonMax best l) (pythonMax_mem l best) hne
  have h2 := pythonMax_ub l best em hm
  rw [h1] at h2
  exact Bool.true_eq_false.mp h2

theorem mem_survivors (cur : Version) (ag : Bool) (items : List Entry) (e : Entry) :
    e ∈ survivors cur ag items ↔ e ∈ items ∧ gtb cur ag e = false := by
  simp [survivors, List.mem_filter, sortByVer_mem]

theorem eqCur_gtb_false (cur : Version) (ag : Bool) (e : Entry) (h : e.1 = some cur) :
    gtb cur ag e = false := by
  obtain ⟨ov, p⟩ := e
  simp only at h
  subst h
  simp [gtb, vlt_irrefl]

theorem prev_gtb_false (cur : Version) (ag : Bool) (e : Entry) (h : isPrevb cur e = true) :
    gtb cur ag e = false := by
  obtain ⟨ov, p⟩ := e
  cases ov with
  | none => simp [gtb]
  | some v =>
    simp only [isPrevb] at h
    simp [gtb, vlt_asymm (prev_vlt h)]

theorem groupKeep_mem (cur : Version) (kp : List Path) (f : List Entry) (p : Path) :
    p ∈ groupKeep cur kp f ↔
      p ∈ keepStage cur kp f ∨ ∃ e, rollbackPick cur f = some e ∧ e.2 = p := by
  unfold groupKeep
  rcases hrb : rollbackPick cur f with _ | e
  · simp [hrb]
  · simp only [insertSet_mem, Option.some.injEq]
    constructor
    · rintro (h2 | h2)
      · exact Or.inr ⟨e, rfl, h2.symm⟩
      · exact Or.inl h2
    · rintro (h2 | ⟨f2, hf2, hfp⟩)
      · exact Or.inr h2
      · exact Or.inl (hf2 ▸ hfp).symm

theorem pruneGroup_spec (cur : Version) (ag : Bool) (kp dl : List Path) (items : List Entry)
    (h : hasNone items = false) :
    ∃ k d, pruneGroup cur ag kp dl items = some (k, d)
      ∧ (∀ p, p ∈ k ↔ p ∈ kp ∨ keptNew cur ag items p)
      ∧ (∀ p, p ∈ d ↔ p ∈ dl
          ∨ (∃ e, e ∈ items ∧ gtb cur ag e = true ∧ e.2 = p)
          ∨ (∃ e, e ∈ items ∧ gtb cur ag e = false ∧ e.2 = p ∧ p ∉ k)) := by
  have hs2 : (filterStage cur ag dl [] (sortByVer items)).2 = survivors cur ag items := by
    rw [filterStage_snd]
    rfl
  have hd1 : ∀ p, p ∈ (filterStage cur ag dl [] (sortByVer items)).1 ↔
      p ∈ dl ∨ ∃ e, e ∈ items ∧ gtb cur ag e = true ∧ e.2 = p := by
    intro p
    simp only [filterStage_fst_mem, sortByVer_mem]
  have hkeep : ∀ p, p ∈ groupKeep cur kp (survivors cur ag items) ↔
      p ∈ kp ∨ keptNew cur ag items p := by
    intro p
    rw [groupKeep_mem, keepStage_mem]
    unfold keptNew rollbackOf
    constructor
    · rintro ((hp | ⟨e, he, hc, hep⟩) | ⟨e, hr, hep⟩)
      · exact Or.inl hp
      · exact Or.inr (Or.inl ⟨e, ((mem_survivors _ _ _ _).mp he).1, hc, hep⟩)
      · exact Or.inr (Or.inr ⟨e, hr, hep⟩)
    · rintro (hp | ⟨e, he, hc, hep⟩ | ⟨e, hr, hep⟩)
      · exact Or.inl (Or.inl hp)
      · exact Or.inl (Or.inr
          ⟨e, (mem_survivors _ _ _ _).mpr ⟨he, eqCur_gtb_false cur ag e hc⟩, hc, hep⟩)
      · exact Or.inr ⟨e, hr, hep⟩
  unfold pruneGroup
  rw [if_neg (show ¬(hasNone items = true) by simp [h]), hs2]
  by_cases hemp : survivors cur ag items = []
  · rw [if_pos hemp]
    refine ⟨kp, _, rfl, ?_, ?_⟩
    · intro p
      constructor
      · exact fun hp => Or.inl hp
      · rintro (hp | ⟨e, he, hc, hep⟩ | ⟨e, hr, hep⟩)
        · exact hp
        · have hmem : e ∈ survivors cur ag items :=
            (mem_survivors _ _ _ _).mpr ⟨he, eqCur_gtb_false cur ag e hc⟩
          rw [hemp] at hmem
          simp at hmem
        · unfold rollbackOf at hr
          rw [hemp] at hr
          simp [rollbackPick] at hr
    · intro p
      rw [hd1 p]
      constructor
      · rintro (hp | hgt)
        · exact Or.inl hp
        · exact Or.inr (Or.inl hgt)
      · rintro (hp | hgt | ⟨e, he, hg, hep, hpk⟩)
        · exact Or.inl hp
        · exact Or.inr hgt
        · have hmem : e ∈ survivors cur ag items := (mem_survivors _ _ _ _).mpr ⟨he, hg⟩
          rw [hemp] at hmem
          simp at hmem
  · rw [if_neg hemp]
    refine ⟨_, _, rfl, hkeep, ?_⟩
    intro p
    rw [sweepStage_mem, hd1 p]
    constructor
    · rintro ((hp | hgt) | ⟨e, he, hep, hpk⟩)
      · exact Or.inl hp
      · exact Or.inr (Or.inl hgt)
      · exact Or.inr (Or.inr ⟨e, ((mem_survivors _ _ _ _).mp he).1,
          ((mem_survivors _ _ _ _).mp he).2, hep, hpk⟩)
    · rintro (hp | hgt | ⟨e, he, hg, hep, hpk⟩)
      · exact Or.inl (Or.inl hp)
      · exact Or.inl (Or.inr hgt)
      · exact Or.inr ⟨e, (mem_survivors _ _ _ _).mpr ⟨he, hg⟩, hep, hpk⟩

theorem path_inj {items : List Entry} (hnd : (items.map Prod.snd).Nodup)
    {e f : Entry} (he : e ∈ items) (hf : f ∈ items) (hp : e.2 = f.2) : e = f :=
  List.inj_on_of_nodup_map hnd he hf hp

theorem hasNone_false_of_some {cur : Version} {ag : Bool} {kp dl : List Path}
    {items : List Entry} {kd : List Path × List Path}
    (hrun : pruneGroup cur ag kp dl items = some kd) : hasNone items = false := by
  by_contra hc
  rw [Bool.not_eq_false] at hc
  unfold pruneGroup at hrun
  rw [if_pos hc] at hrun
  exact Option.noConfusion hrun

theorem mem_prevFilter (cur : Version) (ag : Bool) (items : List Entry) (e : Entry) :
    e ∈ (survivors cur ag items).filter (isPrevb cur) ↔
      e ∈ items ∧ isPrevb cur e = true := by
  rw [List.mem_filter, mem_survivors]
  constructor
  · rintro ⟨⟨h1, _⟩, h3⟩
    exact ⟨h1, h3⟩
  · rintro ⟨h1, h2⟩
    exact ⟨⟨h1, prev_gtb_false cur ag e h2⟩, h2⟩

theorem rollbackOf_eq_of_unique (cur : Version) (ag : Bool) (items : List Entry) (em : Entry)
    (hmem : em ∈ items) (hprev : isPrevb cur em = true)
    (hmax : ∀ f, f ∈ items → isPrevb cur f = true → f ≠ em → vlt (getV f) (getV em) = true) :
    rollbackOf cur ag items = some em := by
  unfold rollbackOf rollbackPick
  rcases hP : (survivors cur ag items).filter (isPrevb cur) with _ | ⟨h0, t0⟩
  · exfalso
    have hin : em ∈ (survivors cur ag items).filter (isPrevb cur) :=
      (mem_prevFilter cur ag items em).mpr ⟨hmem, hprev⟩
    rw [hP] at hin
    simp at hin
  · have hm : em = h0 ∨ em ∈ t0 := by
      have hin : em ∈ (survivors cur ag items).filter (isPrevb cur) :=
        (mem_prevFilter cur ag items em).mpr ⟨hmem, hprev⟩
      rw [hP] at hin
      exact List.mem_cons.mp hin
    have hmax2 : ∀ x, (x = h0 ∨ x ∈ t0) → x ≠ em → vlt (getV x) (getV em) = true := by
      intro x hx hne
      have hin : x ∈ (survivors cur ag items).filter (isPrevb cur) := by
        rw [hP]
        exact List.mem_cons.mpr hx
      obtain ⟨h1, h2⟩ := (mem_prevFilter cur ag items x).mp hin
      exact hmax x h1 h2 hne
    exact congrArg some (pythonMax_eq_of_unique t0 h0 em hm hmax2)

theorem isPrevb_not_eqCur {cur : Version} {e : Entry}
    (h1 : isPrevb cur e = true) (h2 : e.1 = some cur) : False := by
  obtain ⟨ov, p⟩ := e
  simp only at h2
  subst h2
  simp only [isPrevb, Version.is_previous_series, decide_eq_true_eq] at h1
  omega

/-- C3 amended: for a package group whose entries carry distinct paths,
whenever the engine completes on the group (it dies when the group holds
an unparsable version), the path of every entry whose version exactly
equals the current version is in the returned kept set and not in the
returned deleted set, for either value of the override. -/
theorem C3_current_always_kept (cur : Version) (ag : Bool) (items : List Entry)
    (k d : List Path) (p : Path)
    (hnd : (items.map Prod.snd).Nodup)
    (hrun : pruneGroup cur ag [] [] items = some (k, d))
    (hmem : (some cur, p) ∈ items) :
    p ∈ k ∧ p ∉ d := by
  obtain ⟨k2, d2, heq, hk, hd⟩ :=
    pruneGroup_spec cur ag [] [] items (hasNone_false_of_some hrun)
  rw [hrun] at heq
  simp only [Option.some.injEq, Prod.mk.injEq] at heq
  obtain ⟨rfl, rfl⟩ := heq
  have hpk : p ∈ k := (hk p).mpr (Or.inr (Or.inl ⟨(some cur, p), hmem, rfl, rfl⟩))
  refine ⟨hpk, fun hpd => ?_⟩
  rcases (hd p).mp hpd with hp0 | ⟨e, he, hg, hep⟩ | ⟨e, he, hg, hep, hpk2⟩
  · simp at hp0
  · have heqe : e = (some cur, p) := path_inj hnd he hmem hep
    rw [heqe, eqCur_gtb_false cur ag (some cur, p) rfl] at hg
    exact Bool.false_ne_true hg
  · exact hpk2 hpk

/-- C3 witness: on the duplicate-free group `{(2.5.0, a), (2.4.9, b)}`
with current version 2.5.0 the amended claim places `"a"` in kept. -/
theorem C3_current_always_kept_witness :
    "a" ∈ (["a", "b"] : List Path) :=
  (C3_current_always_kept ⟨2, 5, 0⟩ false
    [(some ⟨2, 5, 0⟩, "a"), (some ⟨2, 4, 9⟩, "b")] ["a", "b"] [] "a"
    (by decide) (by decide) (by decide)).1

/-- C4 amended: for a package group whose entries carry distinct paths, on
which the engine completes, and whose previous-series entries admit a
strict maximum, that maximum's path is kept and the path of every other
previous-series entry is deleted; and the claim's Scenario A holds:
current `2.5.0`, the five artifacts, override unset, give kept `{a, b}`
and deleted `{c, d, e}`. -/
theorem C4_single_rollback_kept :
    (∀ (cur : Version) (ag : Bool) (items : List Entry) (k d : List Path) (em : Entry),
      (items.map Prod.snd).Nodup →
      pruneGroup cur ag [] [] items = some (k, d) →
      em ∈ items → isPrevb cur em = true →
      (∀ f, f ∈ items → isPrevb cur f = true → f ≠ em → vlt (getV f) (getV em) = true) →
      em.2 ∈ k ∧ ∀ f, f ∈ items → isPrevb cur f = true → f ≠ em → f.2 ∈ d) ∧
    pruneGroup ⟨2, 5, 0⟩ false [] []
      [(some ⟨2, 5, 0⟩, "a"), (some ⟨2, 4, 9⟩, "b"), (some ⟨2, 4, 8⟩, "c"),
       (some ⟨2, 3, 1⟩, "d"), (some ⟨2, 6, 0⟩, "e")]
      = some (["a", "b"], ["e", "d", "c"]) := by
  constructor
  · intro cur ag items k d em hnd hrun hmem hprev hmax
    obtain ⟨k2, d2, heq, hk, hd⟩ :=
      pruneGroup_spec cur ag [] [] items (hasNone_false_of_some hrun)
    rw [hrun] at heq
    simp only [Option.some.injEq, Prod.mk.injEq] at heq
    obtain ⟨rfl, rfl⟩ := heq
    have hroll : rollbackOf cur ag items = some em :=
      rollbackOf_eq_of_unique cur ag items em hmem hprev hmax
    have hemk : em.2 ∈ k := (hk em.2).mpr (Or.inr (Or.inr ⟨em, hroll, rfl⟩))
    refine ⟨hemk, fun f hf hfprev hfne => ?_⟩
    have hfk : f.2 ∉ k := by
      intro hfk
      rcases (hk f.2).mp hfk with h0 | ⟨e, he, hc, hep⟩ | ⟨e, hr, hep⟩
      · simp at h0
      · exact isPrevb_not_eqCur (path_inj hnd he hf hep ▸ hfprev) ((path_inj hnd he hf hep) ▸ hc)
      · rw [hroll] at hr
        injection hr with hr2
        subst hr2
        exact hfne (path_inj hnd hmem hf hep).symm
    exact (hd f.2).mpr (Or.inr (Or.inr ⟨f, hf, prev_gtb_false cur ag f hfprev, rfl, hfk⟩))
  · decide

/-- C4 witness: Scenario A instantiates the amended claim — the unique
previous-series maximum `(2.4.9, b)` has its path in the kept set. -/
theorem C4_single_rollback_kept_witness :
    "b" ∈ (["a", "b"] : List Path) :=
  (C4_single_rollback_kept.1 ⟨2, 5, 0⟩ false
    [(some ⟨2, 5, 0⟩, "a"), (some ⟨2, 4, 9⟩, "b"), (some ⟨2, 4, 8⟩, "c"),
     (some ⟨2, 3, 1⟩, "d"), (some ⟨2, 6, 0⟩, "e")]
    ["a", "b"] ["e", "d", "c"] (some ⟨2, 4, 9⟩, "b")
    (by decide) (by decide) (by decide) (by decide) (by decide)).1

theorem gtb_true_ag (cur : Version) (e : Entry) : gtb cur true e = false := by
  obtain ⟨ov, p⟩ := e
  cases ov <;> simp [gtb]

theorem rollbackOf_ag (cur : Version) (items : List Entry) :
    rollbackOf cur true items = rollbackOf cur false items := by
  unfold rollbackOf survivors rollbackPick
  rw [List.filter_filter, List.filter_filter]
  have hcongr : ∀ e ∈ sortByVer items,
      (isPrevb cur e && !gtb cur true e) = (isPrevb cur e && !gtb cur false e) := by
    intro e _
    by_cases hp : isPrevb cur e = true
    · rw [hp, gtb_true_ag, prev_gtb_false cur false e hp]
    · rw [Bool.not_eq_true] at hp
      rw [hp, Bool.false_and, Bool.false_and]
  rw [List.filter_congr hcongr]

theorem keptNew_ag (cur : Version) (items : List Entry) (p : Path) :
    keptNew cur true items p ↔ keptNew cur false items p := by
  unfold keptNew
  rw [rollbackOf_ag]

theorem rollbackOf_mem (cur : Version) (ag : Bool) (items : List Entry) (e : Entry)
    (h : rollbackOf cur ag items = some e) :
    e ∈ items ∧ isPrevb cur e = true := by
  unfold rollbackOf rollbackPick at h
  rcases hP : (survivors cur ag items).filter (isPrevb cur) with _ | ⟨h0, t0⟩
  · rw [hP] at h
    exact Option.noConfusion h
  · rw [hP] at h
    injection h with h2
    have hmem : e ∈ (survivors cur ag items).filter (isPrevb cur) := by
      rw [hP, ← h2]
      exact List.mem_cons.mpr ((pythonMax_mem t0 h0).imp id id)
    exact (mem_prevFilter cur ag items e).mp hmem

theorem keptNew_paths (cur : Version) (ag : Bool) (items : List Entry) (p : Path)
    (h : keptNew cur ag items p) : p ∈ pathsOf items := by
  rcases h with ⟨e, he, _, hep⟩ | ⟨e, hr, hep⟩
  · exact hep ▸ List.mem_map.mpr ⟨e, he, rfl⟩
  · exact hep ▸ List.mem_map.mpr ⟨e, (rollbackOf_mem cur ag items e hr).1, rfl⟩

theorem group_agnostic (cur : Version) (items : List Entry) (k1 d1 k2 d2 : List Path)
    (hnone : hasNone items = false)
    (hnd : (items.map Prod.snd).Nodup)
    (hkeq : ∀ p, p ∈ k1 ↔ p ∈ k2) (hdeq : ∀ p, p ∈ d1 ↔ p ∈ d2)
    (hdisj : ∀ p, p ∈ k1 → p ∉ pathsOf items) :
    ∃ K1 D1 K2 D2, pruneGroup cur true k1 d1 items = some (K1, D1)
      ∧ pruneGroup cur false k2 d2 items = some (K2, D2)
      ∧ (∀ p, p ∈ K1 ↔ p ∈ K2) ∧ (∀ p, p ∈ D1 ↔ p ∈ D2)
      ∧ (∀ p, p ∈ K1 → p ∈ k1 ∨ p ∈ pathsOf items) := by
  obtain ⟨K1, D1, heq1, hK1, hD1⟩ := pruneGroup_spec cur true k1 d1 items hnone
  obtain ⟨K2, D2, heq2, hK2, hD2⟩ := pruneGroup_spec cur false k2 d2 items hnone
  have hKK : ∀ p, p ∈ K1 ↔ p ∈ K2 := by
    intro p
    rw [hK1, hK2, hkeq, keptNew_ag]
  refine ⟨K1, D1, K2, D2, heq1, heq2, hKK, ?_, ?_⟩
  · intro p
    rw [hD1, hD2, hdeq]
    constructor
    · rintro (hp | ⟨e, _, hg, _⟩ | ⟨e, he, _, hep, hpk⟩)
      · exact Or.inl hp
      · rw [gtb_true_ag] at hg
        exact absurd hg Bool.false_ne_true
      · rcases hgf : gtb cur false e with _ | _
        · exact Or.inr (Or.inr ⟨e, he, hgf, hep, fun hk2 => hpk ((hKK p).mpr hk2)⟩)
        · exact Or.inr (Or.inl ⟨e, he, hgf, hep⟩)
    · rintro (hp | ⟨e, he, hg, hep⟩ | ⟨e, he, _, hep, hpk⟩)
      · exact Or.inl hp
      · refine Or.inr (Or.inr ⟨e, he, gtb_true_ag cur e, hep, fun hk1 => ?_⟩)
        rcases (hK1 p).mp hk1 with hacc | hkn
        · exact hdisj p hacc (hep ▸ List.mem_map.mpr ⟨e, he, rfl⟩)
        · rcases hkn with ⟨e2, he2, hc2, hep2⟩ | ⟨e2, hr2, hep2⟩
          · have : e2 = e := path_inj hnd he2 he (hep2.trans hep.symm)
            rw [← this] at hg
            rw [eqCur_gtb_false cur false e2 hc2] at hg
            exact Bool.false_ne_true hg
          · rw [rollbackOf_ag] at hr2
            obtain ⟨hmem2, hprev2⟩ := rollbackOf_mem cur false items e2 hr2
            have : e2 = e := path_inj hnd hmem2 he (hep2.trans hep.symm)
            rw [← this] at hg
            rw [prev_gtb_false cur false e2 hprev2] at hg
            exact Bool.false_ne_true hg
      · exact Or.inr (Or.inr ⟨e, he, gtb_true_ag cur e, hep,
          fun hk1 => hpk ((hKK p).mp hk1)⟩)
  · intro p hp
    rcases (hK1 p).mp hp with hacc | hkn
    · exact Or.inl hacc
    · exact Or.inr (keptNew_paths cur true items p hkn)

theorem allPaths_cons (g : List Entry) (rest : List (List Entry)) :
    allPaths (g :: rest) = pathsOf g ++ allPaths rest := by
  simp [allPaths]

theorem prune_agnostic_aux (cur : Version) (groups : List (List Entry)) :
    ∀ kd1 kd2 : List Path × List Path,
      (∀ g ∈ groups, hasNone g = false) →
      (allPaths groups).Nodup →
      (∀ p, p ∈ kd1.1 ↔ p ∈ kd2.1) →
      (∀ p, p ∈ kd1.2 ↔ p ∈ kd2.2) →
      (∀ p, p ∈ kd1.1 → p ∉ allPaths groups) →
      ∃ K1 D1 K2 D2, prune_packages cur true kd1 groups = some (K1, D1)
        ∧ prune_packages cur false kd2 groups = some (K2, D2)
        ∧ (∀ p, p ∈ K1 ↔ p ∈ K2) ∧ (∀ p, p ∈ D1 ↔ p ∈ D2) := by
  induction groups with
  | nil =>
    intro kd1 kd2 _ _ hkeq hdeq _
    exact ⟨kd1.1, kd1.2, kd2.1, kd2.2, rfl, rfl, hkeq, hdeq⟩
  | cons g rest ih =>
    intro kd1 kd2 hnone hnd hkeq hdeq hdisj
    rw [allPaths_cons] at hnd hdisj
    obtain ⟨hndg, hndrest, hdisjgr⟩ := List.nodup_append.mp hnd
    obtain ⟨K1, D1, K2, D2, heq1, heq2, hKK, hDD, hsub⟩ :=
      group_agnostic cur g kd1.1 kd1.2 kd2.1 kd2.2
        (hnone g (List.mem_cons_self g rest)) hndg hkeq hdeq
        (fun p hp hmem => hdisj p hp (List.mem_append.mpr (Or.inl hmem)))
    obtain ⟨K1f, D1f, K2f, D2f, hrec1, hrec2, hKKf, hDDf⟩ :=
      ih (K1, D1) (K2, D2) (fun g2 hg2 => hnone g2 (List.mem_cons_of_mem g hg2))
        hndrest hKK hDD
        (by
          intro p hp hmem
          rcases hsub p hp with hacc | hpg
          · exact hdisj p hacc (List.mem_append.mpr (Or.inr hmem))
          · exact hdisjgr hpg hmem)
    refine ⟨K1f, D1f, K2f, D2f, ?_, ?_, hKKf, hDDf⟩
    · have hstep : prune_packages cur true kd1 (g :: rest)
          = prune_packages cur true (K1, D1) rest := by
        unfold prune_packages
        rw [heq1]
        cases rest <;> rfl
      rw [hstep]
      exact hrec1
    · have hstep : prune_packages cur false kd2 (g :: rest)
          = prune_packages cur false (K2, D2) rest := by
        unfold prune_packages
        rw [heq2]
        cases rest <;> rfl
      rw [hstep]
      exact hrec2

/-- C6 amended: for every input map whose versions are all parseable and
whose entries carry pairwise distinct paths, the engine returns the same
kept set and the same deleted set with the override set as with it unset —
the flag has no effect, because a greater-than-current entry is deleted by
the first loop without the override and, with it, survives only to be
deleted by the final sweep (it is neither the current version nor
previous-series, so it is never kept). -/
theorem C6_allow_greater_no_effect (cur : Version) (groups : List (List Entry))
    (hnone : ∀ g ∈ groups, hasNone g = false)
    (hnd : (allPaths groups).Nodup) :
    ∃ K1 D1 K2 D2, prune_packages cur true ([], []) groups = some (K1, D1)
      ∧ prune_packages cur false ([], []) groups = some (K2, D2)
      ∧ (∀ p, p ∈ K1 ↔ p ∈ K2) ∧ (∀ p, p ∈ D1 ↔ p ∈ D2) :=
  prune_agnostic_aux cur groups ([], []) ([], []) hnone hnd
    (fun _ => Iff.rfl) (fun _ => Iff.rfl)
    (fun p hp => absurd hp (List.not_mem_nil p))

/-- C6 witness: the amended claim applied to the one-group map
`{(1.0.0, x)}` at current version 1.0.0. -/
theorem C6_allow_greater_no_effect_witness :
    ∃ K1 D1 K2 D2,
      prune_packages ⟨1, 0, 0⟩ true ([], []) [[(some ⟨1, 0, 0⟩, "x")]] = some (K1, D1)
      ∧ prune_packages ⟨1, 0, 0⟩ false ([], []) [[(some ⟨1, 0, 0⟩, "x")]] = some (K2, D2)
      ∧ (∀ p, p ∈ K1 ↔ p ∈ K2) ∧ (∀ p, p ∈ D1 ↔ p ∈ D2) :=
  C6_allow_greater_no_effect ⟨1, 0, 0⟩ [[(some ⟨1, 0, 0⟩, "x")]]
    (by decide) (by decide)

theorem prune_packages_cons (cur : Version) (ag : Bool) (kd : List Path × List Path)
    (g : List Entry) (rest : List (List Entry)) (kd2 : List Path × List Path)
    (h : pruneGroup cur ag kd.1 kd.2 g = some kd2) :
    prune_packages cur ag kd (g :: rest) = prune_packages cur ag kd2 rest := by
  unfold prune_packages
  rw [h]
  cases rest <;> rfl

theorem pathsOf_nodup (groups : List (List Entry)) (g : List Entry)
    (hnd : (allPaths groups).Nodup) (hg : g ∈ groups) : (g.map Prod.snd).Nodup := by
  unfold allPaths at hnd
  exact (List.nodup_flatten.mp hnd).1 (pathsOf g) (List.mem_map.mpr ⟨g, hg, rfl⟩)

theorem pathsOf_mem (g : List Entry) (p : Path) :
    p ∈ pathsOf g ↔ ∃ e, e ∈ g ∧ e.2 = p := by
  simp [pathsOf]

theorem mem_allPaths (groups : List (List Entry)) (g : List Entry) (p : Path)
    (hg : g ∈ groups) (hp : p ∈ pathsOf g) : p ∈ allPaths groups := by
  unfold allPaths
  exact List.mem_flatten.mpr ⟨pathsOf g, List.mem_map.mpr ⟨g, hg, rfl⟩, hp⟩

theorem keptNew_localize (cur : Version) (ag : Bool) (groups : List (List Entry))
    (g : List Entry) (p : Path)
    (hnd : (allPaths groups).Nodup) (hg : g ∈ groups) (hp : p ∈ pathsOf g)
    (hk : ∃ g0, g0 ∈ groups ∧ keptNew cur ag g0 p) :
    keptNew cur ag g p := by
  induction groups with
  | nil => exact absurd hg (List.not_mem_nil g)
  | cons a rest ih =>
    rw [allPaths_cons] at hnd
    obtain ⟨_, ndrest, disj⟩ := List.nodup_append.mp hnd
    obtain ⟨g0, hg0, hkn⟩ := hk
    rcases List.mem_cons.mp hg with rfl | hgr
    · rcases List.mem_cons.mp hg0 with rfl | hg0r
      · exact hkn
      · exact absurd (mem_allPaths rest g0 p hg0r (keptNew_paths cur ag g0 p hkn))
          (disj hp)
    · rcases List.mem_cons.mp hg0 with rfl | hg0r
      · exact absurd (mem_allPaths rest g p hgr hp)
          (disj (keptNew_paths cur ag g0 p hkn))
      · exact ih ndrest hgr ⟨g0, hg0r, hkn⟩

theorem prune_keep_char (cur : Version) (ag : Bool) (groups : List (List Entry)) :
    ∀ (kd : List Path × List Path) (K D : List Path),
      (∀ g ∈ groups, hasNone g = false) →
      prune_packages cur ag kd groups = some (K, D) →
      ∀ p, p ∈ K ↔ p ∈ kd.1 ∨ ∃ g, g ∈ groups ∧ keptNew cur ag g p := by
  induction groups with
  | nil =>
    intro kd K D _ hrun p
    injection hrun with h2
    rw [h2]
    simp
  | cons g rest ih =>
    intro kd K D hnone hrun p
    obtain ⟨kg, dg, heqg, hkg, _⟩ :=
      pruneGroup_spec cur ag kd.1 kd.2 g (hnone g (List.mem_cons_self g rest))
    rw [prune_packages_cons cur ag kd g rest (kg, dg) heqg] at hrun
    rw [ih (kg, dg) K D (fun g2 hg2 => hnone g2 (List.mem_cons_of_mem g hg2)) hrun p]
    constructor
    · rintro (hkgmem | ⟨g2, hg2, hkn⟩)
      · rcases (hkg p).mp hkgmem with h | h
        · exact Or.inl h
        · exact Or.inr ⟨g, List.mem_cons_self g rest, h⟩
      · exact Or.inr ⟨g2, List.mem_cons_of_mem g hg2, hkn⟩
    · rintro (h | ⟨g2, hg2, hkn⟩)
      · exact Or.inl ((hkg p).mpr (Or.inl h))
      · rcases List.mem_cons.mp hg2 with rfl | hg2r
        · exact Or.inl ((hkg p).mpr (Or.inr hkn))
        · exact Or.inr ⟨g2, hg2r, hkn⟩

theorem hasNone_filter (g : List Entry) (q : Entry → Bool) (h : hasNone g = false) :
    hasNone (g.filter q) = false := by
  unfold hasNone at *
  rw [List.any_eq_false] at *
  intro e he
  exact h e (List.mem_filter.mp he).1

theorem keptFilter_entry (cur : Version) (ag : Bool) (groups : List (List Entry))
    (K : List Path) (g : List Entry)
    (hnd : (allPaths groups).Nodup)
    (Kchar : ∀ p, p ∈ K ↔ ∃ g0, g0 ∈ groups ∧ keptNew cur ag g0 p)
    (hg : g ∈ groups) :
    ∀ e ∈ g.filter (fun e2 => decide (e2.2 ∈ K)),
      e.1 = some cur ∨ rollbackOf cur ag g = some e := by
  intro e he
  obtain ⟨heg, heK⟩ := List.mem_filter.mp he
  have heK2 : e.2 ∈ K := of_decide_eq_true heK
  have hkng : keptNew cur ag g e.2 :=
    keptNew_localize cur ag groups g e.2 hnd hg
      ((pathsOf_mem g e.2).mpr ⟨e, heg, rfl⟩) ((Kchar e.2).mp heK2)
  have hndg : (g.map Prod.snd).Nodup := pathsOf_nodup groups g hnd hg
  rcases hkng with ⟨e2, he2, hc2, hep2⟩ | ⟨e2, hr2, hep2⟩
  · exact Or.inl ((path_inj hndg he2 heg hep2) ▸ hc2)
  · exact Or.inr ((path_inj hndg (rollbackOf_mem cur ag g e2 hr2).1 heg hep2) ▸ hr2)

theorem keptFilter_self_kept (cur : Version) (ag : Bool) (groups : List (List Entry))
    (K : List Path) (g : List Entry)
    (hnd : (allPaths groups).Nodup)
    (Kchar : ∀ p, p ∈ K ↔ ∃ g0, g0 ∈ groups ∧ keptNew cur ag g0 p)
    (hg : g ∈ groups) :
    ∀ e ∈ g.filter (fun e2 => decide (e2.2 ∈ K)),
      gtb cur ag e = false ∧
        keptNew cur ag (g.filter (fun e2 => decide (e2.2 ∈ K))) e.2 := by
  intro e he
  have hii := keptFilter_entry cur ag groups K g hnd Kchar hg e he
  constructor
  · rcases hii with hc | hr
    · exact eqCur_gtb_false cur ag e hc
    · exact prev_gtb_false cur ag e (rollbackOf_mem cur ag g e hr).2
  · rcases hii with hc | hr
    · exact Or.inl ⟨e, he, hc, rfl⟩
    · have hprev : isPrevb cur e = true := (rollbackOf_mem cur ag g e hr).2
      have hroll2 : rollbackOf cur ag (g.filter (fun e2 => decide (e2.2 ∈ K))) = some e := by
        apply rollbackOf_eq_of_unique
        · exact he
        · exact hprev
        · intro f hf hfprev hfne
          rcases keptFilter_entry cur ag groups K g hnd Kchar hg f hf with hc2 | hr2
          · exact (isPrevb_not_eqCur hfprev hc2).elim
          · have : f = e := by
              have h3 : some f = some e := hr2.symm.trans hr
              injection h3
            exact absurd this hfne
      exact Or.inr ⟨e, hroll2, rfl⟩

theorem prune_del_empty (cur : Version) (ag : Bool) (gs : List (List Entry)) :
    ∀ kp : List Path,
      (∀ g ∈ gs, hasNone g = false) →
      (∀ g ∈ gs, ∀ e ∈ g, gtb cur ag e = false ∧ keptNew cur ag g e.2) →
      ∃ K2, prune_packages cur ag (kp, []) gs = some (K2, [])
        ∧ ∀ p, p ∈ K2 ↔ p ∈ kp ∨ ∃ g, g ∈ gs ∧ keptNew cur ag g p := by
  induction gs with
  | nil =>
    intro kp _ _
    exact ⟨kp, rfl, fun p => by simp⟩
  | cons g rest ih =>
    intro kp hnone hkept
    obtain ⟨kg, dg, heqg, hkg, hdg⟩ :=
      pruneGroup_spec cur ag kp [] g (hnone g (List.mem_cons_self g rest))
    have hdgnil : dg = [] := by
      rw [List.eq_nil_iff_forall_not_mem]
      intro p hp
      rcases (hdg p).mp hp with h0 | ⟨e, he, hg2, _⟩ | ⟨e, he, _, hep, hpk⟩
      · exact List.not_mem_nil p h0
      · rw [(hkept g (List.mem_cons_self g rest) e he).1] at hg2
        exact Bool.false_ne_true hg2
      · exact hpk ((hkg p).mpr
          (Or.inr (hep ▸ (hkept g (List.mem_cons_self g rest) e he).2)))
    subst hdgnil
    obtain ⟨K2, hrec, hK2⟩ := ih kg
      (fun g2 hg2 => hnone g2 (List.mem_cons_of_mem g hg2))
      (fun g2 hg2 => hkept g2 (List.mem_cons_of_mem g hg2))
    refine ⟨K2, ?_, fun p => ?_⟩
    · rw [prune_packages_cons cur ag (kp, []) g rest (kg, []) heqg]
      exact hrec
    · rw [hK2 p]
      constructor
      · rintro (hkgmem | ⟨g2, hg2, hkn⟩)
        · rcases (hkg p).mp hkgmem with h | h
          · exact Or.inl h
          · exact Or.inr ⟨g, List.mem_cons_self g rest, h⟩
        · exact Or.inr ⟨g2, List.mem_cons_of_mem g hg2, hkn⟩
      · rintro (h | ⟨g2, hg2, hkn⟩)
        · exact Or.inl ((hkg p).mpr (Or.inl h))
        · rcases List.mem_cons.mp hg2 with rfl | hg2r
          · exact Or.inl ((hkg p).mpr (Or.inr hkn))
          · exact Or.inr ⟨g2, hg2r, hkn⟩

/-- C7: the policy engine is idempotent on its kept output.  For every
input map with all versions parseable, re-running the engine (same current
version, same override) on the map whose entries are exactly the kept
artifacts of a first run yields an empty deleted set and keeps everything.
The map's entries must carry pairwise distinct paths, as otherwise "the
map whose entries are exactly the kept set" is not determined (a path in
the kept set would correspond to several conflicting entries). -/
theorem C7_idempotent_on_kept (cur : Version) (ag : Bool) (groups : List (List Entry))
    (K D : List Path)
    (hnone : ∀ g ∈ groups, hasNone g = false)
    (hnd : (allPaths groups).Nodup)
    (hrun : prune_packages cur ag ([], []) groups = some (K, D)) :
    ∃ K2, prune_packages cur ag ([], []) (keptFilter K groups) = some (K2, [])
      ∧ ∀ p, p ∈ K2 ↔ p ∈ K := by
  have Kchar : ∀ p, p ∈ K ↔ ∃ g, g ∈ groups ∧ keptNew cur ag g p := by
    intro p
    rw [prune_keep_char cur ag groups ([], []) K D hnone hrun p]
    simp
  have hnone2 : ∀ g2 ∈ keptFilter K groups, hasNone g2 = false := by
    intro g2 hg2
    obtain ⟨g, hg, rfl⟩ := List.mem_map.mp hg2
    exact hasNone_filter g _ (hnone g hg)
  have hkept2 : ∀ g2 ∈ keptFilter K groups, ∀ e ∈ g2,
      gtb cur ag e = false ∧ keptNew cur ag g2 e.2 := by
    intro g2 hg2
    obtain ⟨g, hg, rfl⟩ := List.mem_map.mp hg2
    exact keptFilter_self_kept cur ag groups K g hnd Kchar hg
  obtain ⟨K2, hrun2, hK2⟩ := prune_del_empty cur ag (keptFilter K groups) [] hnone2 hkept2
  refine ⟨K2, hrun2, fun p => ?_⟩
  rw [hK2 p]
  constructor
  · rintro (h0 | ⟨g2, hg2, hkn⟩)
    · exact absurd h0 (List.not_mem_nil p)
    · obtain ⟨g, hg, rfl⟩ := List.mem_map.mp hg2
      obtain ⟨e, he, hep⟩ :=
        (pathsOf_mem _ p).mp (keptNew_paths cur ag _ p hkn)
      exact hep ▸ of_decide_eq_true (List.mem_filter.mp he).2
  · intro hpK
    obtain ⟨g0, hg0, hkn0⟩ := (Kchar p).mp hpK
    obtain ⟨e, heg0, hep⟩ := (pathsOf_mem g0 p).mp (keptNew_paths cur ag g0 p hkn0)
    have hef : e ∈ g0.filter (fun e2 => decide (e2.2 ∈ K)) :=
      List.mem_filter.mpr ⟨heg0, decide_eq_true (hep ▸ hpK)⟩
    have := (keptFilter_self_kept cur ag groups K g0 hnd Kchar hg0 e hef).2
    exact Or.inr ⟨g0.filter (fun e2 => decide (e2.2 ∈ K)),
      List.mem_map.mpr ⟨g0, hg0, rfl⟩, hep ▸ this⟩

/-- C7 witness: a three-entry group at current version 1.2.3 whose first
run keeps `{x, y}` and deletes `{z}`; the re-run on the kept entries
deletes nothing and keeps the same set. -/
theorem C7_idempotent_on_kept_witness :
    ∃ K2, prune_packages ⟨1, 2, 3⟩ false ([], [])
        (keptFilter ["x", "y"]
          [[(some ⟨1, 2, 3⟩, "x"), (some ⟨1, 1, 9⟩, "y"), (some ⟨1, 1, 0⟩, "z")]])
        = some (K2, [])
      ∧ ∀ p, p ∈ K2 ↔ p ∈ (["x", "y"] : List Path) :=
  C7_idempotent_on_kept ⟨1, 2, 3⟩ false
    [[(some ⟨1, 2, 3⟩, "x"), (some ⟨1, 1, 9⟩, "y"), (some ⟨1, 1, 0⟩, "z")]]
    ["x", "y"] ["z"] (by decide) (by decide) (by decide)

theorem prune_sub (cur : Version) (ag : Bool) (groups : List (List Entry)) :
    ∀ (kd : List Path × List Path) (K D : List Path),
      prune_packages cur ag kd groups = some (K, D) →
      (∀ p, p ∈ K → p ∈ kd.1 ∨ p ∈ allPaths groups)
      ∧ (∀ p, p ∈ D → p ∈ kd.2 ∨ p ∈ allPaths groups) := by
  induction groups with
  | nil =>
    intro kd K D hrun
    injection hrun with h2
    subst h2
    exact ⟨fun p hp => Or.inl hp, fun p hp => Or.inl hp⟩
  | cons g rest ih =>
    intro kd K D hrun
    rcases hpg : pruneGroup cur ag kd.1 kd.2 g with _ | kdg
    · unfold prune_packages at hrun
      rw [hpg] at hrun
      exact Option.noConfusion hrun
    · rw [prune_packages_cons cur ag kd g rest kdg hpg] at hrun
      obtain ⟨hKs, hDs⟩ := ih kdg K D hrun
      obtain ⟨kg2, dg2, heq2, hkc, hdc⟩ :=
        pruneGroup_spec cur ag kd.1 kd.2 g (hasNone_false_of_some hpg)
      rw [hpg] at heq2
      injection heq2 with heq3
      subst heq3
      rw [allPaths_cons]
      constructor
      · intro p hp
        rcases hKs p hp with h1 | h1
        · rcases (hkc p).mp h1 with h2 | h2
          · exact Or.inl h2
          · exact Or.inr (List.mem_append.mpr (Or.inl (keptNew_paths cur ag g p h2)))
        · exact Or.inr (List.mem_append.mpr (Or.inr h1))
      · intro p hp
        rcases hDs p hp with h1 | h1
        · rcases (hdc p).mp h1 with h2 | ⟨e, he, _, hep⟩ | ⟨e, he, _, hep, _⟩
          · exact Or.inl h2
          · exact Or.inr (List.mem_append.mpr
              (Or.inl ((pathsOf_mem g p).mpr ⟨e, he, hep⟩)))
          · exact Or.inr (List.mem_append.mpr
              (Or.inl ((pathsOf_mem g p).mpr ⟨e, he, hep⟩)))
        · exact Or.inr (List.mem_append.mpr (Or.inr h1))

theorem buildRpmMap_paths (env : Env) (app : String) (p : Path) :
    p ∈ pathsOf (buildRpmMap env app) →
      ∃ nv, env.rpmMeta p = some nv ∧ nv.1 = app := by
  unfold buildRpmMap
  suffices h : ∀ (files : List Path) (acc : List Entry),
      p ∈ pathsOf (files.foldl
        (fun acc2 q =>
          match env.rpmMeta q with
          | none => acc2
          | some nv => if nv.1 = app then acc2 ++ [(Version.parse nv.2, q)] else acc2)
        acc) →
      p ∈ pathsOf acc ∨ ∃ nv, env.rpmMeta p = some nv ∧ nv.1 = app by
    intro hp
    rcases h env.rpmFiles [] hp with h0 | h0
    · exact absurd h0 (by simp [pathsOf])
    · exact h0
  intro files
  induction files with
  | nil => intro acc hp; exact Or.inl hp
  | cons q rest ihf =>
    intro acc hp
    rw [List.foldl_cons] at hp
    rcases hmq : env.rpmMeta q with _ | nv
    · simp only [hmq] at hp
      exact ihf acc hp
    · simp only [hmq] at hp
      by_cases hq : nv.1 = app
      · rw [if_pos hq] at hp
        rcases ihf _ hp with h0 | h0
        · unfold pathsOf at h0
          rw [List.map_append, List.mem_append] at h0
          rcases h0 with h0 | h0
          · exact Or.inl h0
          · simp only [List.map_cons, List.map_nil, List.mem_singleton] at h0
            subst h0
            exact Or.inr ⟨nv, hmq, hq⟩
        · exact Or.inr h0
      · rw [if_neg hq] at hp
        exact ihf acc hp

theorem buildDebMap_paths (env : Env) (app : String) (p : Path) :
    p ∈ pathsOf (buildDebMap env app) →
      ∃ nv, env.debMeta p = some nv ∧ nv.1 = app := by
  unfold buildDebMap
  suffices h : ∀ (files : List Path) (acc : List Entry),
      p ∈ pathsOf (files.foldl
        (fun acc2 q =>
          match env.debMeta q with
          | none => acc2
          | some nv =>
            if nv.1 = "" then acc2
            else if nv.1 = app then acc2 ++ [(Version.parse nv.2, q)] else acc2)
        acc) →
      p ∈ pathsOf acc ∨ ∃ nv, env.debMeta p = some nv ∧ nv.1 = app by
    intro hp
    rcases h env.debFiles [] hp with h0 | h0
    · exact absurd h0 (by simp [pathsOf])
    · exact h0
  intro files
  induction files with
  | nil => intro acc hp; exact Or.inl hp
  | cons q rest ihf =>
    intro acc hp
    rw [List.foldl_cons] at hp
    rcases hmq : env.debMeta q with _ | nv
    · simp only [hmq] at hp
      exact ihf acc hp
    · simp only [hmq] at hp
      by_cases hq0 : nv.1 = ""
      · rw [if_pos hq0] at hp
        exact ihf acc hp
      · rw [if_neg hq0] at hp
        by_cases hq : nv.1 = app
        · rw [if_pos hq] at hp
          rcases ihf _ hp with h0 | h0
          · unfold pathsOf at h0
            rw [List.map_append, List.mem_append] at h0
            rcases h0 with h0 | h0
            · exact Or.inl h0
            · simp only [List.map_cons, List.map_nil, List.mem_singleton] at h0
              subst h0
              exact Or.inr ⟨nv, hmq, hq⟩
          · exact Or.inr h0
        · rw [if_neg hq] at hp
          exact ihf acc hp

/-- C9: an artifact whose extracted package name differs from the
requested application name (whenever its metadata query succeeds, in
either ecosystem) enters neither grouped map, never appears in the kept
or deleted sets of a completed run, and is never handed to the deletion
phase. -/
theorem C9_other_names_untouched (env : Env) (app tag : String) (ag : Bool) (p : Path)
    (hrpm : ∀ nv, env.rpmMeta p = some nv → nv.1 ≠ app)
    (hdeb : ∀ nv, env.debMeta p = some nv → nv.1 ≠ app) :
    p ∉ pathsOf (buildRpmMap env app)
    ∧ p ∉ pathsOf (buildDebMap env app)
    ∧ (∀ K D, main_model env app tag ag = .ok K D → p ∉ K ∧ p ∉ D)
    ∧ p ∉ removedPaths (main_model env app tag ag) := by
  have hnr : p ∉ pathsOf (buildRpmMap env app) := by
    intro hp
    obtain ⟨nv, hmv, hname⟩ := buildRpmMap_paths env app p hp
    exact hrpm nv hmv hname
  have hnd2 : p ∉ pathsOf (buildDebMap env app) := by
    intro hp
    obtain ⟨nv, hmv, hname⟩ := buildDebMap_paths env app p hp
    exact hdeb nv hmv hname
  have hok : ∀ K D, main_model env app tag ag = .ok K D → p ∉ K ∧ p ∉ D := by
    intro K D hrun
    unfold main_model at hrun
    rcases hparse : Version.parse tag with _ | cur
    · simp only [hparse] at hrun
      exact Outcome.noConfusion hrun
    · simp only [hparse] at hrun
      by_cases h4 : env.rpmFiles ≠ [] ∧ ¬env.rpmTool
      · rw [if_pos h4] at hrun
        exact Outcome.noConfusion hrun
      · rw [if_neg h4] at hrun
        by_cases h5 : env.debFiles ≠ [] ∧ ¬env.dpkgTool
        · rw [if_pos h5] at hrun
          exact Outcome.noConfusion hrun
        · rw [if_neg h5] at hrun
          rcases hpr : prune_packages cur ag ([], []) [buildRpmMap env app] with _ | kd1
          · rw [hpr] at hrun
            exact Outcome.noConfusion hrun
          · rw [hpr] at hrun
            rcases hpd : prune_packages cur ag ([], []) [buildDebMap env app] with _ | kd2
            · rw [hpd] at hrun
              exact Outcome.noConfusion hrun
            · rw [hpd] at hrun
              injection hrun with hK hD
              obtain ⟨hk1, hd1⟩ := prune_sub cur ag [buildRpmMap env app] ([], []) kd1.1 kd1.2 hpr
              obtain ⟨hk2, hd2⟩ := prune_sub cur ag [buildDebMap env app] ([], []) kd2.1 kd2.2 hpd
              have hA1 : allPaths [buildRpmMap env app] = pathsOf (buildRpmMap env app) := by
                simp [allPaths]
              have hA2 : allPaths [buildDebMap env app] = pathsOf (buildDebMap env app) := by
                simp [allPaths]
              constructor
              · intro hpK
                rw [← hK] at hpK
                rcases List.mem_append.mp hpK with h6 | h6
                · rcases hk1 p h6 with h7 | h7
                  · exact List.not_mem_nil p h7
                  · exact hnr (hA1 ▸ h7)
                · rcases hk2 p h6 with h7 | h7
                  · exact List.not_mem_nil p h7
                  · exact hnd2 (hA2 ▸ h7)
              · intro hpD
                rw [← hD] at hpD
                rcases List.mem_append.mp hpD with h6 | h6
                · rcases hd1 p h6 with h7 | h7
                  · exact List.not_mem_nil p h7
                  · exact hnr (hA1 ▸ h7)
                · rcases hd2 p h6 with h7 | h7
                  · exact List.not_mem_nil p h7
                  · exact hnd2 (hA2 ▸ h7)
  refine ⟨hnr, hnd2, hok, ?_⟩
  rcases hout : main_model env app tag ag with _ | _ | _ | _ | ⟨K, D⟩
  · exact List.not_mem_nil p
  · exact List.not_mem_nil p
  · exact List.not_mem_nil p
  · exact List.not_mem_nil p
  · exact (hok K D hout).2

/-- C9 witness: an RPM artifact reported as package `other` while the run
prunes application `app` never enters any set and is not removed. -/
theorem C9_other_names_untouched_witness :
    "x.rpm" ∉ removedPaths (main_model
      ⟨true, true, ["x.rpm"], [], fun _ => some ("other", "1.0.0"), fun _ => none⟩
      "app" "1.0.0" false) :=
  (C9_other_names_untouched
    ⟨true, true, ["x.rpm"], [], fun _ => some ("other", "1.0.0"), fun _ => none⟩
    "app" "1.0.0" false "x.rpm"
    (fun nv h => by
      injection h with h2
      rw [← h2]
      decide)
    (fun nv h => Option.noConfusion h)).2.2.2

/-- C8 amended: given a parseable target tag, the run is fatal with exit
code 4 exactly when at least one RPM file is found and the rpm tool is
absent; it is fatal with exit code 5 exactly when at least one DEB file is
found and dpkg-deb is absent *and the RPM fatal condition does not hold*
(the RPM check runs first and masks the DEB check); in both fatal cases
nothing reaches the deletion phase; and when an ecosystem has zero
artifacts, a missing tool for it causes no fatal error. -/
theorem C8_exit_codes (env : Env) (app tag : String) (ag : Bool) (cur : Version)
    (hparse : Version.parse tag = some cur) :
    (main_model env app tag ag = .missingRpm ↔ env.rpmFiles ≠ [] ∧ ¬env.rpmTool)
    ∧ (main_model env app tag ag = .missingDeb ↔
        (env.debFiles ≠ [] ∧ ¬env.dpkgTool) ∧ ¬(env.rpmFiles ≠ [] ∧ ¬env.rpmTool))
    ∧ ((main_model env app tag ag = .missingRpm ∨ main_model env app tag ag = .missingDeb) →
        removedPaths (main_model env app tag ag) = [])
    ∧ (env.rpmFiles = [] → main_model env app tag ag ≠ .missingRpm)
    ∧ (env.debFiles = [] → main_model env app tag ag ≠ .missingDeb) := by
  by_cases h4 : env.rpmFiles ≠ [] ∧ ¬env.rpmTool
  · have hm : main_model env app tag ag = .missingRpm := by
      unfold main_model
      simp only [hparse]
      rw [if_pos h4]
    rw [hm]
    exact ⟨⟨fun _ => h4, fun _ => rfl⟩,
      ⟨fun h => Outcome.noConfusion h, fun h => absurd h4 h.2⟩,
      fun _ => rfl,
      fun hrf => (h4.1 hrf).elim,
      fun _ h => Outcome.noConfusion h⟩
  · by_cases h5 : env.debFiles ≠ [] ∧ ¬env.dpkgTool
    · have hm : main_model env app tag ag = .missingDeb := by
        unfold main_model
        simp only [hparse]
        rw [if_neg h4, if_pos h5]
      rw [hm]
      exact ⟨⟨fun h => Outcome.noConfusion h, fun h => absurd h h4⟩,
        ⟨fun _ => ⟨h5, h4⟩, fun _ => rfl⟩,
        fun _ => rfl,
        fun _ h => Outcome.noConfusion h,
        fun hdf => (h5.1 hdf).elim⟩
    · have hm : main_model env app tag ag = .crashed
          ∨ ∃ K D, main_model env app tag ag = .ok K D := by
        unfold main_model
        simp only [hparse]
        rw [if_neg h4, if_neg h5]
        rcases hpr : prune_packages cur ag ([], []) [buildRpmMap env app] with _ | kd1
        · simp only [hpr]
          exact Or.inl (by trivial)
        · simp only [hpr]
          rcases hpd : prune_packages cur ag ([], []) [buildDebMap env app] with _ | kd2
          · simp only [hpd]
            exact Or.inl (by trivial)
          · simp only [hpd]
            exact Or.inr ⟨_, _, by trivial⟩
      have hne1 : main_model env app tag ag ≠ .missingRpm := by
        rcases hm with h | ⟨K, D, h⟩ <;> rw [h] <;> exact fun hc => Outcome.noConfusion hc
      have hne2 : main_model env app tag ag ≠ .missingDeb := by
        rcases hm with h | ⟨K, D, h⟩ <;> rw [h] <;> exact fun hc => Outcome.noConfusion hc
      refine ⟨⟨fun h => absurd h hne1, fun hcond => absurd hcond h4⟩,
        ⟨fun h => absurd h hne2, fun hcond => absurd hcond.1 h5⟩,
        fun hor => ?_, fun _ => hne1, fun _ => hne2⟩
      rcases hor with h | h
      · exact absurd h hne1
      · exact absurd h hne2

/-- C8 witness: one RPM file present with the rpm tool missing (DEB side
clean) is exit 4. -/
theorem C8_exit_codes_witness :
    main_model ⟨false, true, ["a.rpm"], [], fun _ => none, fun _ => none⟩
      "app" "1.0.0" false = .missingRpm :=
  (C8_exit_codes ⟨false, true, ["a.rpm"], [], fun _ => none, fun _ => none⟩
    "app" "1.0.0" false ⟨1, 0, 0⟩ (by decide)).1.mpr (by decide)

theorem takeWhile_digits (d rest : List Char)
    (hd : ∀ c ∈ d, c.isDigit = true)
    (hr : ∀ c, rest.head? = some c → c.isDigit = false) :
    (d ++ rest).takeWhile Char.isDigit = d
      ∧ (d ++ rest).dropWhile Char.isDigit = rest := by
  induction d with
  | nil =>
    simp only [List.nil_append]
    cases rest with
    | nil => simp
    | cons c r =>
      have hc := hr c rfl
      simp [List.takeWhile_cons, List.dropWhile_cons, hc]
  | cons a d2 ih =>
    have ha := hd a (List.mem_cons_self a d2)
    obtain ⟨ih1, ih2⟩ := ih (fun c hc => hd c (List.mem_cons_of_mem a hc))
    simp [List.takeWhile_cons, List.dropWhile_cons, ha, ih1, ih2]

theorem head_dot_not_digit (xs : List Char) :
    ∀ c, (('.' :: xs).head? = some c) → c.isDigit = false := by
  intro c hc
  injection hc with h
  rw [← h]
  decide

theorem matchTripleFrom_eq (d1 d2 d3 rest : List Char)
    (h1 : d1 ≠ []) (h2 : d2 ≠ []) (h3 : d3 ≠ [])
    (hd1 : ∀ c ∈ d1, c.isDigit = true) (hd2 : ∀ c ∈ d2, c.isDigit = true)
    (hd3 : ∀ c ∈ d3, c.isDigit = true)
    (hr : ∀ c, rest.head? = some c → c.isDigit = false) :
    matchTripleFrom (d1 ++ '.' :: (d2 ++ '.' :: (d3 ++ rest)))
      = some (natOfDigits d1, natOfDigits d2, natOfDigits d3) := by
  obtain ⟨ht1, hp1⟩ :=
    takeWhile_digits d1 ('.' :: (d2 ++ '.' :: (d3 ++ rest))) hd1 (head_dot_not_digit _)
  obtain ⟨ht2, hp2⟩ :=
    takeWhile_digits d2 ('.' :: (d3 ++ rest)) hd2 (head_dot_not_digit _)
  obtain ⟨ht3, hp3⟩ := takeWhile_digits d3 rest hd3 hr
  unfold matchTripleFrom
  simp only [ht1, hp1, ht2, hp2, ht3, hp3]
  rw [if_neg h1, if_neg h2, if_neg h3]

theorem matchTripleAt_v (xs : List Char) : matchTripleAt ('v' :: xs) = matchTripleFrom xs := by
  rfl

theorem matchTripleAt_not_v (c : Char) (xs : List Char) (h : c ≠ 'v') :
    matchTripleAt (c :: xs) = matchTripleFrom (c :: xs) := by
  unfold matchTripleAt
  split
  · next rest heq =>
    injection heq with hc _
    exact absurd hc h
  · rfl

theorem searchTriple_cons_some (c : Char) (xs : List Char) (t : Nat × Nat × Nat)
    (h : matchTripleAt (c :: xs) = some t) : searchTriple (c :: xs) = some t := by
  simp only [searchTriple, h]

theorem digit_ne_v (c : Char) (h : c.isDigit = true) : c ≠ 'v' := by
  intro hc
  rw [hc] at h
  exact absurd h (by decide)

theorem matchTripleFrom_decomp (cs : List Char) (t : Nat × Nat × Nat)
    (h : matchTripleFrom cs = some t) :
    ∃ d1 d2 d3 rest, cs = d1 ++ '.' :: (d2 ++ '.' :: (d3 ++ rest))
      ∧ d1 ≠ [] ∧ d2 ≠ [] ∧ d3 ≠ []
      ∧ (∀ c ∈ d1, c.isDigit = true) ∧ (∀ c ∈ d2, c.isDigit = true)
      ∧ (∀ c ∈ d3, c.isDigit = true) := by
  unfold matchTripleFrom at h
  by_cases h1 : cs.takeWhile Char.isDigit = []
  · rw [if_pos h1] at h
    exact Option.noConfusion h
  · rw [if_neg h1] at h
    split at h
    · next r2 heq =>
      by_cases h2 : r2.takeWhile Char.isDigit = []
      · rw [if_pos h2] at h
        exact Option.noConfusion h
      · rw [if_neg h2] at h
        split at h
        · next r3 heq2 =>
          by_cases h3 : r3.takeWhile Char.isDigit = []
          · rw [if_pos h3] at h
            exact Option.noConfusion h
          · refine ⟨cs.takeWhile Char.isDigit, r2.takeWhile Char.isDigit,
              r3.takeWhile Char.isDigit, r3.dropWhile Char.isDigit, ?_, h1, h2, h3,
              fun c hc => List.mem_takeWhile_imp hc,
              fun c hc => List.mem_takeWhile_imp hc,
              fun c hc => List.mem_takeWhile_imp hc⟩
            conv_lhs => rw [← List.takeWhile_append_dropWhile Char.isDigit cs]
            rw [heq]
            congr 1
            congr 1
            conv_lhs => rw [← List.takeWhile_append_dropWhile Char.isDigit r2]
            rw [heq2]
            congr 1
            congr 1
            exact (List.takeWhile_append_dropWhile Char.isDigit r3).symm
        · exact Option.noConfusion h
    · exact Option.noConfusion h

theorem matchTripleAt_decomp (cs : List Char) (t : Nat × Nat × Nat)
    (h : matchTripleAt cs = some t) :
    ∃ vtag rest2, cs = vtag ++ rest2 ∧ (vtag = [] ∨ vtag = ['v'])
      ∧ matchTripleFrom rest2 = some t := by
  cases cs with
  | nil => exact ⟨[], [], rfl, Or.inl rfl, h⟩
  | cons c rest =>
    by_cases hc : c = 'v'
    · subst hc
      rw [matchTripleAt_v] at h
      exact ⟨['v'], rest, rfl, Or.inr rfl, h⟩
    · rw [matchTripleAt_not_v c rest hc] at h
      exact ⟨[], c :: rest, rfl, Or.inl rfl, h⟩

theorem searchTriple_hasTriple (cs : List Char) :
    ∀ t : Nat × Nat × Nat, searchTriple cs = some t → hasTriple cs := by
  induction cs with
  | nil => intro t h; exact Option.noConfusion h
  | cons c rest ih =>
    intro t h
    unfold searchTriple at h
    split at h
    · next t0 heq =>
      obtain ⟨vtag, rest2, hcs, hv, hmf⟩ := matchTripleAt_decomp (c :: rest) t0 heq
      obtain ⟨d1, d2, d3, rest3, hdec, hn1, hn2, hn3, hg1, hg2, hg3⟩ :=
        matchTripleFrom_decomp rest2 t0 hmf
      refine ⟨[], vtag, d1, d2, d3, rest3, ?_, hv, hn1, hn2, hn3, hg1, hg2, hg3⟩
      rw [List.nil_append, hcs, hdec]
      simp [List.append_assoc]
    · next heq =>
      obtain ⟨pre, vtag, d1, d2, d3, rest3, hceq, hv, hn1, hn2, hn3, hg1, hg2, hg3⟩ :=
        ih t h
      refine ⟨c :: pre, vtag, d1, d2, d3, rest3, ?_, hv, hn1, hn2, hn3, hg1, hg2, hg3⟩
      simp [hceq, List.append_assoc]

/-- C10 amended: for every string made of an optional leading `v`, three
dot-separated non-empty decimal digit runs and a trailing suffix that does
not begin with a digit, `Version.parse` returns exactly the values of the
three digit runs; and on every string on which `Version.parse` returns a
version, the string does contain a `v?D+.D+.D+` occurrence (equivalently,
a string with no such occurrence parses to absent rather than raising). -/
theorem C10_parse_triple :
    (∀ (s : String) (useV : Bool) (d1 d2 d3 rest : List Char),
      s.toList = (if useV then ['v'] else []) ++ (d1 ++ '.' :: (d2 ++ '.' :: (d3 ++ rest))) →
      d1 ≠ [] → d2 ≠ [] → d3 ≠ [] →
      (∀ c ∈ d1, c.isDigit = true) → (∀ c ∈ d2, c.isDigit = true) →
      (∀ c ∈ d3, c.isDigit = true) →
      (∀ c, rest.head? = some c → c.isDigit = false) →
      Version.parse s = some ⟨natOfDigits d1, natOfDigits d2, natOfDigits d3⟩)
    ∧ (∀ s : String, Version.parse s ≠ none → hasTriple s.toList) := by
  constructor
  · intro s useV d1 d2 d3 rest hs h1 h2 h3 hd1 hd2 hd3 hr
    have hsearch : searchTriple s.toList
        = some (natOfDigits d1, natOfDigits d2, natOfDigits d3) := by
      rw [hs]
      cases useV with
      | true =>
        rw [if_pos rfl, List.singleton_append]
        exact searchTriple_cons_some 'v' _ _
          ((matchTripleAt_v _).trans
            (matchTripleFrom_eq d1 d2 d3 rest h1 h2 h3 hd1 hd2 hd3 hr))
      | false =>
        rw [if_neg (by simp), List.nil_append]
        rcases hd1c : d1 with _ | ⟨c, d1t⟩
        · exact absurd hd1c h1
        · rw [List.cons_append]
          refine searchTriple_cons_some c _ _ ?_
          rw [matchTripleAt_not_v c _ (digit_ne_v c (hd1 c (hd1c ▸ List.mem_cons_self c d1t)))]
          rw [← List.cons_append, ← hd1c]
          exact matchTripleFrom_eq d1 d2 d3 rest h1 h2 h3 hd1 hd2 hd3 hr
    unfold Version.parse
    rw [hsearch]
    rfl
  · intro s hne
    rcases hst : searchTriple s.toList with _ | t
    · exfalso
      apply hne
      unfold Version.parse
      rw [hst]
      rfl
    · exact searchTriple_hasTriple s.toList t hst

/-- C10 witness: `"v1.2.3-rc1"` parses to exactly (1, 2, 3) despite the
suffix, and `"1.2.3"` (on which parse succeeds) contains a triple. -/
theorem C10_parse_triple_witness :
    Version.parse "v1.2.3-rc1" = some ⟨1, 2, 3⟩
      ∧ hasTriple (String.toList "1.2.3") := by
  constructor
  · exact C10_parse_triple.1 "v1.2.3-rc1" true ['1'] ['2'] ['3'] ['-', 'r', 'c', '1']
      (by decide) (by decide) (by decide) (by decide)
      (by decide) (by decide) (by decide)
      (fun c hc => by
        injection hc with h
        rw [← h]
        decide)
  · exact C10_parse_triple.2 "1.2.3" (by decide)

end PruneRepo
